import Mathlib

/-!
Verification of the discretized investment-problem dynamic-programming
solver.

A shallow embedding over `ℚ` of the core MDP solver of the workshop notebook
`day_4/investment_jax.ipynb`: the Bellman action-value array `B`, the
max-operator `T`, greedy policy extraction `get_greedy`, the policy-restricted
operators `T_σ` / `R_σ` and their flattened matrix versions, and the solver
loops `value_iteration` and `policy_iteration`.

Arrays indexed by the state grid (size `ny + 1`) and the shock grid (size
`nz + 1`) become functions on `Fin (ny + 1)` and `Fin (nz + 1)`; vectorized
broadcasting becomes index-wise definition; the sizes are positive by
construction, matching the notebook's defaults (100 and 150).
-/

namespace Investment

/-- Value arrays v of shape (Ny, Nz). -/
abbrev Val (ny nz : ℕ) := Fin (ny + 1) → Fin (nz + 1) → ℚ

/-- Policy arrays σ of shape (Ny, Nz) whose entries are action-grid indices. -/
abbrev Pol (ny nz : ℕ) := Fin (ny + 1) → Fin (nz + 1) → Fin (ny + 1)

/-- The namedtuple Model of the notebook: scalar constants, the two grids and
the shock transition matrix.  The sizes y_size = ny + 1 and z_size = nz + 1
live in the type indices. -/
structure Model (ny nz : ℕ) where
  β : ℚ
  a_0 : ℚ
  a_1 : ℚ
  γ : ℚ
  c : ℚ
  y_grid : Fin (ny + 1) → ℚ
  z_grid : Fin (nz + 1) → ℚ
  Q : Fin (nz + 1) → Fin (nz + 1) → ℚ

/-- Model of np.linspace(a, b, n+1): n+1 evenly spaced points from a to b
inclusive (a alone when n = 0). -/
def linspace (a b : ℚ) (n : ℕ) : Fin (n + 1) → ℚ :=
  fun i => if n = 0 then a else a + i.val * (b - a) / n

/-- The create_investment_model constructor: β = 1/(1+r), y_grid by linspace;
z_grid and Q are the outputs of the external Tauchen discretization routine,
taken here as inputs since that routine is a black-box collaborator. -/
def create_investment_model (r a_0 a_1 γ c y_min y_max : ℚ) (ny nz : ℕ)
    (z_grid : Fin (nz + 1) → ℚ) (Q : Fin (nz + 1) → Fin (nz + 1) → ℚ) :
    Model ny nz :=
  { β := 1 / (1 + r), a_0 := a_0, a_1 := a_1, γ := γ, c := c,
    y_grid := linspace y_min y_max ny, z_grid := z_grid, Q := Q }

variable {ny nz : ℕ}

/-- Current rewards r(y, z, yp) as the array r[i, j, ip] of the function B:
(a_0 - a_1*y + z - c)*y - γ*(yp - y)^2 with y = y_grid[i], z = z_grid[j],
yp = y_grid[ip]. -/
def reward (M : Model ny nz) (i : Fin (ny + 1)) (j : Fin (nz + 1))
    (ip : Fin (ny + 1)) : ℚ :=
  (M.a_0 - M.a_1 * M.y_grid i + M.z_grid j - M.c) * M.y_grid i
    - M.γ * (M.y_grid ip - M.y_grid i) ^ 2

/-- Continuation rewards EV[i, j, ip] = Σ_jp v[ip, jp] * Q[j, jp], the sum
over the last index jp of the broadcast product in the function B. -/
def EV (M : Model ny nz) (v : Val ny nz) (i : Fin (ny + 1)) (j : Fin (nz + 1))
    (ip : Fin (ny + 1)) : ℚ :=
  ∑ jp, v ip jp * M.Q j jp

/-- The right-hand side of the Bellman equation before maximization, the 3D
array B(v)[i, j, ip] = r[i, j, ip] + β * EV[i, j, ip]. -/
def B (M : Model ny nz) (v : Val ny nz) (i : Fin (ny + 1)) (j : Fin (nz + 1))
    (ip : Fin (ny + 1)) : ℚ :=
  reward M i j ip + M.β * EV M v i j ip

/-- Model of jnp.max over the action axis: the maximum of f over Fin (n+1). -/
def maxFin {n : ℕ} (f : Fin (n + 1) → ℚ) : ℚ :=
  Finset.univ.sup' ⟨(0 : Fin (n + 1)), Finset.mem_univ _⟩ f

/-- The set of maximizers of f is nonempty. -/
theorem argmax_filter_nonempty {n : ℕ} (f : Fin (n + 1) → ℚ) :
    (Finset.filter (fun i => ∀ ip, f ip ≤ f i) Finset.univ).Nonempty := by
  obtain ⟨b, _, hb⟩ :=
    Finset.exists_mem_eq_sup' (⟨(0 : Fin (n + 1)), Finset.mem_univ _⟩ :
      (Finset.univ : Finset (Fin (n + 1))).Nonempty) f
  refine ⟨b, Finset.mem_filter.mpr ⟨Finset.mem_univ _, fun ip => ?_⟩⟩
  rw [← hb]
  exact Finset.le_sup' f (Finset.mem_univ ip)

/-- Model of jnp.argmax over the action axis: in case of ties the index of the
first (lowest-index) occurrence of the maximum is returned, per the
numpy/jax documentation. -/
def argmaxFin {n : ℕ} (f : Fin (n + 1) → ℚ) : Fin (n + 1) :=
  (Finset.filter (fun i => ∀ ip, f ip ≤ f i) Finset.univ).min'
    (argmax_filter_nonempty f)

/-- The Bellman operator: T(v)[i, j] = max over ip of B(v)[i, j, ip]. -/
def T (M : Model ny nz) (v : Val ny nz) (i : Fin (ny + 1))
    (j : Fin (nz + 1)) : ℚ :=
  maxFin (fun ip => B M v i j ip)

/-- Computes a v-greedy policy, returned as a set of indices:
greedy(v)[i, j] = argmax over ip of B(v)[i, j, ip]. -/
def get_greedy (M : Model ny nz) (v : Val ny nz) (i : Fin (ny + 1))
    (j : Fin (nz + 1)) : Fin (ny + 1) :=
  argmaxFin (fun ip => B M v i j ip)

/-- The array r_σ[i, j] = r[i, j, σ[i, j]] of current rewards given policy σ
(the function compute_r_σ). -/
def compute_r_σ (M : Model ny nz) (σ : Pol ny nz) (i : Fin (ny + 1))
    (j : Fin (nz + 1)) : ℚ :=
  (M.a_0 - M.a_1 * M.y_grid i + M.z_grid j - M.c) * M.y_grid i
    - M.γ * (M.y_grid (σ i j) - M.y_grid i) ^ 2

/-- The σ-policy operator:
T_σ(v, σ)[i, j] = r_σ[i, j] + β * Σ_jp v[σ[i, j], jp] * Q[j, jp]. -/
def T_σ (M : Model ny nz) (v : Val ny nz) (σ : Pol ny nz) (i : Fin (ny + 1))
    (j : Fin (nz + 1)) : ℚ :=
  compute_r_σ M σ i j + M.β * ∑ jp, v (σ i j) jp * M.Q j jp

/-- The linear map R_σ = I - β P_σ in multi-index form:
(R_σ v)[i, j] = v[i, j] - β * Σ_jp v[σ[i, j], jp] * Q[j, jp]. -/
def R_σ (M : Model ny nz) (v : Val ny nz) (σ : Pol ny nz) (i : Fin (ny + 1))
    (j : Fin (nz + 1)) : ℚ :=
  v i j - M.β * ∑ jp, v (σ i j) jp * M.Q j jp

/-- The transition probabilities across states under policy σ as a
multi-index array: P_σ[i, j, ip, jp] = (σ[i, j] == ip) * Q[j, jp]
(the function compute_P_σ). -/
def compute_P_σ (M : Model ny nz) (σ : Pol ny nz) (i : Fin (ny + 1))
    (j : Fin (nz + 1)) (ip : Fin (ny + 1)) (jp : Fin (nz + 1)) : ℚ :=
  (if σ i j = ip then 1 else 0) * M.Q j jp

/-- Row index of the C-order flattening of a (ny+1, nz+1) array at flat
index m: m / (nz+1). -/
def toPairY (m : Fin ((ny + 1) * (nz + 1))) : Fin (ny + 1) :=
  ⟨m.val / (nz + 1), (Nat.div_lt_iff_lt_mul (Nat.succ_pos nz)).mpr m.isLt⟩

/-- Column index of the C-order flattening of a (ny+1, nz+1) array at flat
index m: m % (nz+1). -/
def toPairZ (m : Fin ((ny + 1) * (nz + 1))) : Fin (nz + 1) :=
  ⟨m.val % (nz + 1), Nat.mod_lt _ (Nat.succ_pos nz)⟩

/-- The C-order flat index of the multi-index (i, j): i * (nz+1) + j. -/
def toFlat (i : Fin (ny + 1)) (j : Fin (nz + 1)) : Fin ((ny + 1) * (nz + 1)) :=
  ⟨i.val * (nz + 1) + j.val, by
    calc i.val * (nz + 1) + j.val < i.val * (nz + 1) + (nz + 1) := by
          exact Nat.add_lt_add_left j.isLt _
      _ = (i.val + 1) * (nz + 1) := by ring
      _ ≤ (ny + 1) * (nz + 1) := Nat.mul_le_mul_right _ i.isLt⟩

theorem toPairY_toFlat (i : Fin (ny + 1)) (j : Fin (nz + 1)) :
    toPairY (toFlat i j) = i := by
  apply Fin.ext
  show (i.val * (nz + 1) + j.val) / (nz + 1) = i.val
  rw [Nat.add_comm, Nat.add_mul_div_right _ _ (Nat.succ_pos nz),
    Nat.div_eq_of_lt j.isLt, Nat.zero_add]

theorem toPairZ_toFlat (i : Fin (ny + 1)) (j : Fin (nz + 1)) :
    toPairZ (toFlat i j) = j := by
  apply Fin.ext
  show (i.val * (nz + 1) + j.val) % (nz + 1) = j.val
  rw [Nat.add_comm, Nat.add_mul_mod_self_right, Nat.mod_eq_of_lt j.isLt]

theorem toFlat_toPair (m : Fin ((ny + 1) * (nz + 1))) :
    toFlat (toPairY m) (toPairZ m) = m := by
  apply Fin.ext
  show m.val / (nz + 1) * (nz + 1) + m.val % (nz + 1) = m.val
  rw [Nat.mul_comm]
  exact Nat.div_add_mod m.val (nz + 1)

/-- The C-order state-flattening bijection (i, j) ↦ i * (nz+1) + j used by
jnp.reshape when collapsing the (Ny, Nz) state multi-index to a single
index. -/
def stateEquiv (ny nz : ℕ) : Fin (ny + 1) × Fin (nz + 1) ≃
    Fin ((ny + 1) * (nz + 1)) where
  toFun p := toFlat p.1 p.2
  invFun m := (toPairY m, toPairZ m)
  left_inv p := by
    exact Prod.ext (toPairY_toFlat p.1 p.2) (toPairZ_toFlat p.1 p.2)
  right_inv m := toFlat_toPair m

/-- Model of jnp.reshape from shape (ny+1, nz+1) to the flat length
(ny+1)*(nz+1), in C order. -/
def flatten (g : Val ny nz) : Fin ((ny + 1) * (nz + 1)) → ℚ :=
  fun m => g (toPairY m) (toPairZ m)

/-- The matrix P_σ reshaped to shape (n, n) with n = (ny+1)*(nz+1), rows
indexed by the flattened (i, j) and columns by the flattened (ip, jp). -/
def P_flat (M : Model ny nz) (σ : Pol ny nz) :
    Fin ((ny + 1) * (nz + 1)) → Fin ((ny + 1) * (nz + 1)) → ℚ :=
  fun m mp => compute_P_σ M σ (toPairY m) (toPairZ m) (toPairY mp) (toPairZ mp)

/-- The σ-policy operator, single index version: flatten r_σ, P_σ and v,
compute new_v = r_σ + β * P_σ @ v, and reshape back to (ny+1, nz+1). -/
def T_σ_matrix_version (M : Model ny nz) (v : Val ny nz) (σ : Pol ny nz)
    (i : Fin (ny + 1)) (j : Fin (nz + 1)) : ℚ :=
  flatten (fun a b => compute_r_σ M σ a b) (toFlat i j)
    + M.β * ∑ mp, P_flat M σ (toFlat i j) mp * flatten v mp

/-- The flattened linear system matrix I - β P_σ solved by the function
get_value_matrix_version. -/
def I_minus_βP (M : Model ny nz) (σ : Pol ny nz) :
    Fin ((ny + 1) * (nz + 1)) → Fin ((ny + 1) * (nz + 1)) → ℚ :=
  fun m mp => (if m = mp then 1 else 0) - M.β * P_flat M σ m mp

/-- The sup norm (max absolute entry) of an (ny+1, nz+1) array, the error
metric np.max(np.abs(...)) of the solver loops. -/
def supNorm (g : Val ny nz) : ℚ :=
  Finset.univ.sup'
    ⟨((0 : Fin (ny + 1)), (0 : Fin (nz + 1))), Finset.mem_univ _⟩
    (fun p : Fin (ny + 1) × Fin (nz + 1) => |g p.1 p.2|)

/-- The loop of successive_approx, fuel-indexed by the remaining iteration
budget (max_iter in the source): while the error exceeds the tolerance and
fuel remains, replace x by step x and the error by the sup-norm change; the
result is the final iterate together with the final error. -/
def successive_approx (step : Val ny nz → Val ny nz) (tol : ℚ)
    (x : Val ny nz) (err : ℚ) : ℕ → Val ny nz × ℚ
  | 0 => (x, err)
  | fuel + 1 =>
      if tol < err then
        successive_approx step tol (step x)
          (supNorm (fun i j => step x i j - x i j)) fuel
      else (x, err)

/-- The all-zero value array jnp.zeros(sizes). -/
def zeroVal (ny nz : ℕ) : Val ny nz := fun _ _ => 0

/-- Implements VFI: run successive_approx on T from the zero array with the
given tolerance and the iteration cap 10000, then return the greedy policy
of the final iterate (also when the cap was hit, in which case the source
prints a non-fatal warning and still returns). -/
def value_iteration (M : Model ny nz) (tol : ℚ) : Pol ny nz :=
  get_greedy M
    (successive_approx (fun v => T M v) tol (zeroVal ny nz) (tol + 1) 10000).1

/-- The error metric of policy_iteration: the maximum absolute difference of
the integer index arrays, jnp.max(np.abs(σ_new - σ)). -/
def pol_err (σ1 σ2 : Pol ny nz) : ℤ :=
  Finset.univ.sup'
    ⟨((0 : Fin (ny + 1)), (0 : Fin (nz + 1))), Finset.mem_univ _⟩
    (fun p : Fin (ny + 1) × Fin (nz + 1) =>
      |((σ1 p.1 p.2 : ℤ)) - ((σ2 p.1 p.2 : ℤ))|)

/-- One round of Howard policy iteration followed by the loop test: compute
σ_new = get_greedy(val_fn σ); if the error max|σ_new - σ| is still positive,
continue from σ_new, otherwise return it.  The policy evaluation val_fn is a
parameter because the source delegates it to an external linear solver
(bicgstab or dense solve).  Fuel-indexed since the source loop has no cap:
none models non-termination within the budget. -/
def pi_loop (M : Model ny nz) (val_fn : Pol ny nz → Val ny nz) :
    ℕ → Pol ny nz → Option (Pol ny nz)
  | 0, _ => none
  | fuel + 1, σ =>
      let σn := get_greedy M (val_fn σ)
      if 0 < pol_err σn σ then pi_loop M val_fn fuel σn else some σn

/-- Howard policy iteration routine: start from the all-zero policy and loop
until the greedy improvement no longer changes the policy. -/
def policy_iteration (M : Model ny nz) (val_fn : Pol ny nz → Val ny nz)
    (fuel : ℕ) : Option (Pol ny nz) :=
  pi_loop M val_fn fuel (fun _ _ => (0 : Fin (ny + 1)))

theorem le_maxFin {n : ℕ} (f : Fin (n + 1) → ℚ) (i : Fin (n + 1)) :
    f i ≤ maxFin f :=
  Finset.le_sup' f (Finset.mem_univ i)

theorem maxFin_le {n : ℕ} (f : Fin (n + 1) → ℚ) (a : ℚ)
    (h : ∀ i, f i ≤ a) : maxFin f ≤ a :=
  Finset.sup'_le _ f (fun i _ => h i)

theorem argmaxFin_isMax {n : ℕ} (f : Fin (n + 1) → ℚ) (i : Fin (n + 1)) :
    f i ≤ f (argmaxFin f) := by
  have hmem := Finset.min'_mem
    (Finset.filter (fun i => ∀ ip, f ip ≤ f i) Finset.univ)
    (argmax_filter_nonempty f)
  exact (Finset.mem_filter.mp hmem).2 i

theorem f_argmaxFin_eq_maxFin {n : ℕ} (f : Fin (n + 1) → ℚ) :
    f (argmaxFin f) = maxFin f :=
  le_antisymm (le_maxFin f _) (maxFin_le f _ (argmaxFin_isMax f))

theorem argmaxFin_le_of_isMax {n : ℕ} (f : Fin (n + 1) → ℚ) (i : Fin (n + 1))
    (h : ∀ ip, f ip ≤ f i) : argmaxFin f ≤ i :=
  Finset.min'_le _ i (Finset.mem_filter.mpr ⟨Finset.mem_univ _, h⟩)

/-- C1: B(v) is the Ny×Nz×Ny array whose entry (i,j,ip) equals
r(i,j,ip) + β · Σ_jp v[ip,jp]·Q[j,jp], where the reward is
r(i,j,ip) = (a_0 − a_1·y_grid[i] + z_grid[j] − c)·y_grid[i]
− γ·(y_grid[ip] − y_grid[i])², current profit minus a quadratic adjustment
cost on the gap between the chosen next state and the current state, and the
continuation term depends on j only through Q. -/
theorem B_entry (M : Model ny nz) (v : Val ny nz) (i : Fin (ny + 1))
    (j : Fin (nz + 1)) (ip : Fin (ny + 1)) :
    B M v i j ip =
      ((M.a_0 - M.a_1 * M.y_grid i + M.z_grid j - M.c) * M.y_grid i
        - M.γ * (M.y_grid ip - M.y_grid i) ^ 2)
      + M.β * ∑ jp, v ip jp * M.Q j jp ∧
    ∀ j' : Fin (nz + 1), M.Q j = M.Q j' →
      B M v i j ip - reward M i j ip = B M v i j' ip - reward M i j' ip := by
  constructor
  · rfl
  · intro j' hQ
    simp only [B, EV, add_sub_cancel_left, hQ]

/-- C2: T(v)[i,j] is the maximum over ip of B(v)[i,j,ip] (every entry is a
lower bound and it is attained), get_greedy(v)[i,j] is the argmax with ties
broken by the first (lowest-index) maximizer, and every entry of
get_greedy(v) lies in [0, Ny). -/
theorem T_get_greedy_spec (M : Model ny nz) (v : Val ny nz)
    (i : Fin (ny + 1)) (j : Fin (nz + 1)) :
    (∀ ip, B M v i j ip ≤ T M v i j) ∧
    B M v i j (get_greedy M v i j) = T M v i j ∧
    (∀ ip, (∀ ipp, B M v i j ipp ≤ B M v i j ip) → get_greedy M v i j ≤ ip) ∧
    (get_greedy M v i j : ℕ) < ny + 1 := by
  refine ⟨fun ip => le_maxFin _ ip, f_argmaxFin_eq_maxFin _, ?_, (get_greedy M v i j).isLt⟩
  intro ip hip
  exact argmaxFin_le_of_isMax _ ip hip

/-- C9: for any policy σ, T_σ(v, σ)[i,j] = B(v)[i,j,σ[i,j]], and applying the
policy-restricted operator with the greedy policy reproduces the Bellman
max-operator exactly: T_σ(v, get_greedy(v)) = T(v). -/
theorem T_σ_greedy_eq_T (M : Model ny nz) (v : Val ny nz) :
    (∀ (σ : Pol ny nz) (i : Fin (ny + 1)) (j : Fin (nz + 1)),
      T_σ M v σ i j = B M v i j (σ i j)) ∧
    (∀ (i : Fin (ny + 1)) (j : Fin (nz + 1)),
      T_σ M v (get_greedy M v) i j = T M v i j) := by
  have hB : ∀ (σ : Pol ny nz) i j, T_σ M v σ i j = B M v i j (σ i j) :=
    fun σ i j => rfl
  refine ⟨hB, fun i j => ?_⟩
  rw [hB (get_greedy M v) i j]
  exact f_argmaxFin_eq_maxFin (fun ip => B M v i j ip)

theorem abs_le_supNorm (g : Val ny nz) (i : Fin (ny + 1)) (j : Fin (nz + 1)) :
    |g i j| ≤ supNorm g :=
  Finset.le_sup' (fun p : Fin (ny + 1) × Fin (nz + 1) => |g p.1 p.2|)
    (Finset.mem_univ (i, j))

theorem supNorm_le (g : Val ny nz) (a : ℚ) (h : ∀ i j, |g i j| ≤ a) :
    supNorm g ≤ a :=
  Finset.sup'_le _ _ (fun p _ => h p.1 p.2)

theorem supNorm_nonneg (g : Val ny nz) : 0 ≤ supNorm g :=
  le_trans (abs_nonneg (g 0 0)) (abs_le_supNorm g 0 0)

theorem supNorm_sub_comm (g h : Val ny nz) :
    supNorm (fun i j => g i j - h i j) = supNorm (fun i j => h i j - g i j) :=
  Finset.sup'_congr _ rfl (fun p _ => abs_sub_comm _ _)

/-- For a row-stochastic row of Q, the conditional expectation of any array
is bounded in absolute value by the sup norm of the array. -/
theorem exp_abs_le_supNorm (M : Model ny nz) (hQ0 : ∀ j jp, 0 ≤ M.Q j jp)
    (hQ1 : ∀ j, ∑ jp, M.Q j jp = 1) (d : Val ny nz) (ip : Fin (ny + 1))
    (j : Fin (nz + 1)) :
    |∑ jp, d ip jp * M.Q j jp| ≤ supNorm d := by
  calc |∑ jp, d ip jp * M.Q j jp| ≤ ∑ jp, |d ip jp * M.Q j jp| :=
        Finset.abs_sum_le_sum_abs _ _
    _ = ∑ jp, |d ip jp| * M.Q j jp := by
        refine Finset.sum_congr rfl fun jp _ => ?_
        rw [abs_mul, abs_of_nonneg (hQ0 j jp)]
    _ ≤ ∑ jp, supNorm d * M.Q j jp := by
        refine Finset.sum_le_sum fun jp _ => ?_
        exact mul_le_mul_of_nonneg_right (abs_le_supNorm d ip jp) (hQ0 j jp)
    _ = supNorm d := by rw [← Finset.mul_sum, hQ1, mul_one]

theorem B_sub (M : Model ny nz) (v1 v2 : Val ny nz) (i : Fin (ny + 1))
    (j : Fin (nz + 1)) (ip : Fin (ny + 1)) :
    B M v1 i j ip - B M v2 i j ip =
      M.β * ∑ jp, (v1 ip jp - v2 ip jp) * M.Q j jp := by
  calc B M v1 i j ip - B M v2 i j ip
      = M.β * (∑ jp, v1 ip jp * M.Q j jp - ∑ jp, v2 ip jp * M.Q j jp) := by
        simp only [B, EV]; ring
    _ = M.β * ∑ jp, (v1 ip jp - v2 ip jp) * M.Q j jp := by
        rw [← Finset.sum_sub_distrib]
        exact congrArg (M.β * ·)
          (Finset.sum_congr rfl fun jp _ => (sub_mul _ _ _).symm)

theorem abs_B_sub_le (M : Model ny nz) (hβ0 : 0 ≤ M.β)
    (hQ0 : ∀ j jp, 0 ≤ M.Q j jp) (hQ1 : ∀ j, ∑ jp, M.Q j jp = 1)
    (v1 v2 : Val ny nz) (i : Fin (ny + 1)) (j : Fin (nz + 1))
    (ip : Fin (ny + 1)) :
    |B M v1 i j ip - B M v2 i j ip| ≤
      M.β * supNorm (fun a b => v1 a b - v2 a b) := by
  rw [B_sub, abs_mul, abs_of_nonneg hβ0]
  exact mul_le_mul_of_nonneg_left
    (exp_abs_le_supNorm M hQ0 hQ1 (fun a b => v1 a b - v2 a b) ip j) hβ0

theorem T_sub_le (M : Model ny nz) (hβ0 : 0 ≤ M.β)
    (hQ0 : ∀ j jp, 0 ≤ M.Q j jp) (hQ1 : ∀ j, ∑ jp, M.Q j jp = 1)
    (v1 v2 : Val ny nz) (i : Fin (ny + 1)) (j : Fin (nz + 1)) :
    T M v1 i j - T M v2 i j ≤
      M.β * supNorm (fun a b => v1 a b - v2 a b) := by
  rw [sub_le_iff_le_add]
  apply maxFin_le
  intro ip
  have h1 := abs_B_sub_le M hβ0 hQ0 hQ1 v1 v2 i j ip
  have h2 : B M v2 i j ip ≤ T M v2 i j := le_maxFin _ ip
  have h3 : B M v1 i j ip - B M v2 i j ip ≤
      M.β * supNorm (fun a b => v1 a b - v2 a b) :=
    le_trans (le_abs_self _) h1
  linarith

/-- C3: for β ∈ (0,1) and row-stochastic Q, the Bellman operator T is a
contraction of modulus β in the sup norm:
‖T(v1) − T(v2)‖∞ ≤ β·‖v1 − v2‖∞. -/
theorem T_contraction (M : Model ny nz) (hβ0 : 0 < M.β) (hβ1 : M.β < 1)
    (hQ0 : ∀ j jp, 0 ≤ M.Q j jp) (hQ1 : ∀ j, ∑ jp, M.Q j jp = 1)
    (v1 v2 : Val ny nz) :
    supNorm (fun i j => T M v1 i j - T M v2 i j) ≤
      M.β * supNorm (fun i j => v1 i j - v2 i j) := by
  apply supNorm_le
  intro i j
  rw [abs_sub_le_iff]
  constructor
  · exact T_sub_le M (le_of_lt hβ0) hQ0 hQ1 v1 v2 i j
  · rw [supNorm_sub_comm]
    exact T_sub_le M (le_of_lt hβ0) hQ0 hQ1 v2 v1 i j

/-- Multiplying a flattened array by a row of the flattened P_σ computes the
conditional expectation of the array at the policy-chosen next state. -/
theorem P_flat_row_apply (M : Model ny nz) (σ : Pol ny nz) (v : Val ny nz)
    (m : Fin ((ny + 1) * (nz + 1))) :
    ∑ mp, P_flat M σ m mp * flatten v mp =
      ∑ jp, v (σ (toPairY m) (toPairZ m)) jp * M.Q (toPairZ m) jp := by
  rw [← Equiv.sum_comp (stateEquiv ny nz)
    (fun mp => P_flat M σ m mp * flatten v mp)]
  simp only [stateEquiv, Equiv.coe_fn_mk, P_flat, flatten, compute_P_σ,
    toPairY_toFlat, toPairZ_toFlat]
  rw [Fintype.sum_prod_type]
  have hinner : ∀ ip : Fin (ny + 1),
      (∑ jp, (if σ (toPairY m) (toPairZ m) = ip then (1 : ℚ) else 0) *
        M.Q (toPairZ m) jp * v ip jp) =
      (if σ (toPairY m) (toPairZ m) = ip then
        ∑ jp, v ip jp * M.Q (toPairZ m) jp else 0) := by
    intro ip
    by_cases h : σ (toPairY m) (toPairZ m) = ip
    · simp only [if_pos h, one_mul]
      exact Finset.sum_congr rfl fun jp _ => mul_comm _ _
    · simp only [if_neg h, zero_mul, Finset.sum_const_zero]
  rw [Finset.sum_congr rfl (fun ip _ => hinner ip), Finset.sum_ite_eq]
  simp only [Finset.mem_univ, if_true]

/-- C4: the σ-policy operator satisfies
T_σ(v, σ)[i,j] = r_σ[i,j] + β·Σ_jp v[σ[i,j], jp]·Q[j,jp], and the
single-index implementation T_σ_matrix_version — which materializes
P_σ[(i,j),(ip,jp)] = 1{σ[i,j]=ip}·Q[j,jp], flattens the state, and computes
r_σ + β·P_σ·v — returns exactly the same Ny×Nz array. -/
theorem T_σ_matrix_version_eq_T_σ (M : Model ny nz) (v : Val ny nz)
    (σ : Pol ny nz) :
    (∀ (i : Fin (ny + 1)) (j : Fin (nz + 1)),
      T_σ M v σ i j = compute_r_σ M σ i j +
        M.β * ∑ jp, v (σ i j) jp * M.Q j jp) ∧
    (∀ (i : Fin (ny + 1)) (j : Fin (nz + 1)),
      T_σ_matrix_version M v σ i j = T_σ M v σ i j) := by
  refine ⟨fun i j => rfl, fun i j => ?_⟩
  unfold T_σ_matrix_version T_σ
  rw [P_flat_row_apply]
  simp only [flatten, toPairY_toFlat, toPairZ_toFlat]

theorem T_σ_sub (M : Model ny nz) (v w : Val ny nz) (σ : Pol ny nz)
    (i : Fin (ny + 1)) (j : Fin (nz + 1)) :
    T_σ M v σ i j - T_σ M w σ i j =
      M.β * ∑ jp, (v (σ i j) jp - w (σ i j) jp) * M.Q j jp := by
  calc T_σ M v σ i j - T_σ M w σ i j
      = M.β * (∑ jp, v (σ i j) jp * M.Q j jp
          - ∑ jp, w (σ i j) jp * M.Q j jp) := by
        simp only [T_σ]; ring
    _ = M.β * ∑ jp, (v (σ i j) jp - w (σ i j) jp) * M.Q j jp := by
        rw [← Finset.sum_sub_distrib]
        exact congrArg (M.β * ·)
          (Finset.sum_congr rfl fun jp _ => (sub_mul _ _ _).symm)

/-- Under β ∈ [0,1) and a row-stochastic Q, the policy operator T_σ(·, σ) has
at most one fixed point. -/
theorem T_σ_fixed_unique (M : Model ny nz) (hβ0 : 0 ≤ M.β) (hβ1 : M.β < 1)
    (hQ0 : ∀ j jp, 0 ≤ M.Q j jp) (hQ1 : ∀ j, ∑ jp, M.Q j jp = 1)
    (σ : Pol ny nz) (v w : Val ny nz)
    (hv : ∀ i j, T_σ M v σ i j = v i j)
    (hw : ∀ i j, T_σ M w σ i j = w i j) : v = w := by
  set d : Val ny nz := fun i j => v i j - w i j with hd
  have hbound : ∀ (i : Fin (ny + 1)) (j : Fin (nz + 1)),
      |d i j| ≤ M.β * supNorm d := by
    intro i j
    have h1 : d i j = M.β * ∑ jp, d (σ i j) jp * M.Q j jp := by
      rw [hd]
      simp only
      rw [← hv i j, ← hw i j]
      exact T_σ_sub M v w σ i j
    rw [h1, abs_mul, abs_of_nonneg hβ0]
    exact mul_le_mul_of_nonneg_left
      (exp_abs_le_supNorm M hQ0 hQ1 d (σ i j) j) hβ0
  have hN : supNorm d ≤ M.β * supNorm d := supNorm_le d _ hbound
  have hN0 : 0 ≤ supNorm d := supNorm_nonneg d
  have hzero : supNorm d ≤ 0 := by nlinarith
  funext i j
  have h2 : |d i j| ≤ 0 := le_trans (abs_le_supNorm d i j) hzero
  have h3 : d i j = 0 := abs_eq_zero.mp (le_antisymm h2 (abs_nonneg _))
  exact sub_eq_zero.mp h3

/-- The flattened linear system matrix applied to a flattened array computes
the flattening of R_σ: (I − β P_σ) · flatten v = flatten (R_σ v). -/
theorem I_minus_βP_apply (M : Model ny nz) (σ : Pol ny nz) (v : Val ny nz)
    (m : Fin ((ny + 1) * (nz + 1))) :
    ∑ mp, I_minus_βP M σ m mp * flatten v mp =
      flatten (fun i j => R_σ M v σ i j) m := by
  unfold I_minus_βP
  simp only [sub_mul, Finset.sum_sub_distrib]
  have hδ : ∑ mp, (if m = mp then (1 : ℚ) else 0) * flatten v mp =
      flatten v m := by
    simp only [ite_mul, one_mul, zero_mul, Finset.sum_ite_eq,
      Finset.mem_univ, if_true]
  have hP : ∑ mp, M.β * P_flat M σ m mp * flatten v mp =
      M.β * ∑ jp, v (σ (toPairY m) (toPairZ m)) jp * M.Q (toPairZ m) jp := by
    rw [← P_flat_row_apply M σ v m, Finset.mul_sum]
    exact Finset.sum_congr rfl fun mp _ => by ring
  rw [hδ, hP]
  rfl

/-- A fixed point of T_σ is exactly a solution of the residual equation
R_σ v = r_σ. -/
theorem R_σ_eq_iff_fixed (M : Model ny nz) (σ : Pol ny nz) (v : Val ny nz) :
    (∀ i j, R_σ M v σ i j = compute_r_σ M σ i j) ↔
    (∀ i j, T_σ M v σ i j = v i j) := by
  constructor
  · intro h i j
    have := h i j
    simp only [R_σ] at this
    simp only [T_σ]
    linarith
  · intro h i j
    have := h i j
    simp only [T_σ] at this
    simp only [R_σ]
    linarith

/-- C5: in exact arithmetic the two policy-evaluation strategies coincide:
any v1 solving the iterative-solver system R_σ v = r_σ and any v2 solving the
dense flattened system (I − β·P_σ) v = r_σ are equal, both are fixed points
of T_σ(·, σ), and that fixed point is unique. -/
theorem get_value_versions_agree (M : Model ny nz) (σ : Pol ny nz)
    (hβ0 : 0 < M.β) (hβ1 : M.β < 1)
    (hQ0 : ∀ j jp, 0 ≤ M.Q j jp) (hQ1 : ∀ j, ∑ jp, M.Q j jp = 1)
    (v1 v2 : Val ny nz)
    (h1 : ∀ i j, R_σ M v1 σ i j = compute_r_σ M σ i j)
    (h2 : ∀ m, ∑ mp, I_minus_βP M σ m mp * flatten v2 mp =
      flatten (fun a b => compute_r_σ M σ a b) m) :
    v1 = v2 ∧ (∀ i j, T_σ M v1 σ i j = v1 i j) ∧
    (∀ w : Val ny nz, (∀ i j, T_σ M w σ i j = w i j) → w = v1) := by
  have hfix1 : ∀ i j, T_σ M v1 σ i j = v1 i j :=
    (R_σ_eq_iff_fixed M σ v1).mp h1
  have h2' : ∀ i j, R_σ M v2 σ i j = compute_r_σ M σ i j := by
    intro i j
    have := h2 (toFlat i j)
    rw [I_minus_βP_apply] at this
    simpa only [flatten, toPairY_toFlat, toPairZ_toFlat] using this
  have hfix2 : ∀ i j, T_σ M v2 σ i j = v2 i j :=
    (R_σ_eq_iff_fixed M σ v2).mp h2'
  refine ⟨T_σ_fixed_unique M (le_of_lt hβ0) hβ1 hQ0 hQ1 σ v1 v2 hfix1 hfix2,
    hfix1, fun w hw =>
      T_σ_fixed_unique M (le_of_lt hβ0) hβ1 hQ0 hQ1 σ w v1 hw hfix1⟩

/-- Characterization of the successive_approx loop: the result is the k-th
iterate for some k within the fuel budget; the reported error is the
sup-norm change of the last step (or the initial error when no step ran);
and the loop stops only because the error fell to the tolerance or the
budget ran out. -/
theorem successive_approx_spec (step : Val ny nz → Val ny nz) (tol : ℚ) :
    ∀ (fuel : ℕ) (x : Val ny nz) (err : ℚ), ∃ k ≤ fuel,
      (successive_approx step tol x err fuel).1 = step^[k] x ∧
      (k = 0 → (successive_approx step tol x err fuel).2 = err) ∧
      (0 < k → (successive_approx step tol x err fuel).2 =
        supNorm (fun i j => step^[k] x i j - step^[k - 1] x i j)) ∧
      ((successive_approx step tol x err fuel).2 ≤ tol ∨ k = fuel) := by
  intro fuel
  induction fuel with
  | zero =>
    intro x err
    exact ⟨0, le_refl 0, rfl, fun _ => rfl, fun h => absurd h (lt_irrefl 0),
      Or.inr rfl⟩
  | succ n ih =>
    intro x err
    by_cases h : tol < err
    · obtain ⟨k, hk, h1, h2, h3, h4⟩ :=
        ih (step x) (supNorm (fun i j => step x i j - x i j))
      refine ⟨k + 1, by omega, ?_, ?_, ?_, ?_⟩
      · simp only [successive_approx, if_pos h]
        rw [h1, ← Function.iterate_succ_apply]
      · intro hk0; exact absurd hk0 (Nat.succ_ne_zero k)
      · intro _
        simp only [successive_approx, if_pos h]
        rcases Nat.eq_zero_or_pos k with hk0 | hkpos
        · subst hk0
          rw [h2 rfl]
          simp only [zero_add, Nat.add_sub_cancel, Nat.sub_self,
            Function.iterate_one, Function.iterate_zero, id_eq]
        · rw [h3 hkpos]
          have he : ∀ a : ℕ, step^[a] (step x) = step^[a + 1] x :=
            fun a => (Function.iterate_succ_apply step a x).symm
          rw [he k, Nat.add_sub_cancel]
          have hkk : k - 1 + 1 = k := by omega
          rw [he (k - 1), hkk]
      · rcases h4 with h4 | h4
        · left; simpa only [successive_approx, if_pos h] using h4
        · right; omega
    · refine ⟨0, Nat.zero_le _, ?_, ?_, fun hk0 => absurd hk0 (lt_irrefl 0),
        Or.inl ?_⟩
      · simp only [successive_approx, if_neg h, Function.iterate_zero, id_eq]
      · intro _; simp only [successive_approx, if_neg h]
      · simp only [successive_approx, if_neg h]
        exact le_of_not_lt h

/-- C6: value_iteration iterates T from the all-zero value array under the
iteration cap 10 000; it stops once the sup-norm change of a step is within
the tolerance or the cap is hit, and in both cases (the cap case after a
non-fatal warning) it returns get_greedy of the current iterate. -/
theorem value_iteration_spec (M : Model ny nz) (tol : ℚ) :
    ∃ k ≤ 10000,
      value_iteration M tol =
        get_greedy M ((fun v => T M v)^[k] (zeroVal ny nz)) ∧
      (0 < k → (successive_approx (fun v => T M v) tol (zeroVal ny nz)
          (tol + 1) 10000).2 =
        supNorm (fun i j => (fun v => T M v)^[k] (zeroVal ny nz) i j
          - (fun v => T M v)^[k - 1] (zeroVal ny nz) i j)) ∧
      ((successive_approx (fun v => T M v) tol (zeroVal ny nz)
          (tol + 1) 10000).2 ≤ tol ∨ k = 10000) := by
  obtain ⟨k, hk, h1, _, h3, h4⟩ :=
    successive_approx_spec (fun v => T M v) tol 10000 (zeroVal ny nz) (tol + 1)
  exact ⟨k, hk, by rw [value_iteration, h1], h3, h4⟩

theorem pol_err_le_zero_iff (σ1 σ2 : Pol ny nz) :
    pol_err σ1 σ2 ≤ 0 ↔ σ1 = σ2 := by
  constructor
  · intro h
    funext i j
    have hle : |((σ1 i j : ℤ)) - ((σ2 i j : ℤ))| ≤ pol_err σ1 σ2 :=
      Finset.le_sup'
        (fun p : Fin (ny + 1) × Fin (nz + 1) =>
          |((σ1 p.1 p.2 : ℤ)) - ((σ2 p.1 p.2 : ℤ))|)
        (Finset.mem_univ (i, j))
    have h0 : |((σ1 i j : ℤ)) - ((σ2 i j : ℤ))| = 0 :=
      le_antisymm (le_trans hle h) (abs_nonneg _)
    have h1 : ((σ1 i j : ℤ)) = ((σ2 i j : ℤ)) :=
      sub_eq_zero.mp (abs_eq_zero.mp h0)
    exact Fin.ext (Nat.cast_injective h1)
  · intro h
    subst h
    apply Finset.sup'_le
    intro p _
    simp only [sub_self, abs_zero, le_refl]

/-- One step of pi_loop from a policy either recurses or returns a policy
fixed under one improvement round. -/
theorem pi_loop_fixed (M : Model ny nz) (val_fn : Pol ny nz → Val ny nz) :
    ∀ (fuel : ℕ) (σ0 σs : Pol ny nz),
      pi_loop M val_fn fuel σ0 = some σs →
      get_greedy M (val_fn σs) = σs := by
  intro fuel
  induction fuel with
  | zero => intro σ0 σs h; exact absurd h (by simp [pi_loop])
  | succ n ih =>
    intro σ0 σs h
    simp only [pi_loop] at h
    by_cases hc : 0 < pol_err (get_greedy M (val_fn σ0)) σ0
    · rw [if_pos hc] at h
      exact ih _ σs h
    · rw [if_neg hc] at h
      have heq : get_greedy M (val_fn σ0) = σ0 :=
        (pol_err_le_zero_iff _ _).mp (le_of_not_lt hc)
      have hs : get_greedy M (val_fn σ0) = σs := Option.some_injective _ h
      rw [← hs, heq]
      exact heq

/-- C7: whenever policy_iteration (started from the all-zero policy,
stopping only when the greedy improvement leaves the policy entrywise
unchanged) returns a policy σ*, that policy is a fixed point of the
evaluation/improvement round-trip: get_greedy(val_fn(σ*)) = σ*, so one
further improvement step returns σ* unchanged. -/
theorem policy_iteration_fixed_point (M : Model ny nz)
    (val_fn : Pol ny nz → Val ny nz) (fuel : ℕ) (σs : Pol ny nz)
    (h : policy_iteration M val_fn fuel = some σs) :
    get_greedy M (val_fn σs) = σs :=
  pi_loop_fixed M val_fn fuel _ σs h

/-- C8 counterexample: model construction performs no validation.  With
r = −2 — so β = 1/(1+r) = −1 ∉ (0,1) — and a transition matrix whose row
sums to 37 (not row-stochastic), create_investment_model still returns a
model carrying those invalid values instead of rejecting the configuration
with a ConfigurationError. -/
theorem create_investment_model_counterexample :
    (create_investment_model (-2) 10 1 25 1 0 20 0 0 (fun _ => 0)
      (fun _ _ => 37)).β = -1 ∧
    ¬ (0 < (create_investment_model (-2) 10 1 25 1 0 20 0 0 (fun _ => 0)
        (fun _ _ => 37)).β ∧
      (create_investment_model (-2) 10 1 25 1 0 20 0 0 (fun _ => 0)
        (fun _ _ => 37)).β < 1) ∧
    (∑ jp, (create_investment_model (-2) 10 1 25 1 0 20 0 0 (fun _ => 0)
      (fun _ _ => 37)).Q 0 jp) = 37 := by
  refine ⟨by norm_num [create_investment_model],
    by norm_num [create_investment_model],
    by simp [create_investment_model, Fin.sum_univ_succ]⟩

/-- C8 amended: model construction performs no validation.  For every input,
also β ∉ (0,1), a non-row-stochastic Q or arbitrary grids,
create_investment_model returns a model with β = 1/(1+r), the linspace
output grid, and the shock grid and transition matrix stored unchanged;
no configuration is ever rejected. -/
theorem create_investment_model_no_validation (r a_0 a_1 γ c y_min y_max : ℚ)
    (ny nz : ℕ) (z_grid : Fin (nz + 1) → ℚ)
    (Q : Fin (nz + 1) → Fin (nz + 1) → ℚ) :
    (create_investment_model r a_0 a_1 γ c y_min y_max ny nz z_grid Q).β =
      1 / (1 + r) ∧
    (create_investment_model r a_0 a_1 γ c y_min y_max ny nz z_grid Q).y_grid =
      linspace y_min y_max ny ∧
    (create_investment_model r a_0 a_1 γ c y_min y_max ny nz z_grid Q).z_grid =
      z_grid ∧
    (create_investment_model r a_0 a_1 γ c y_min y_max ny nz z_grid Q).Q = Q :=
  ⟨rfl, rfl, rfl, rfl⟩

/-- C10: for every policy σ and row-stochastic Q, the induced
state-transition array compute_P_σ(σ), viewed as the flattened
Ny·Nz × Ny·Nz matrix, is itself row-stochastic: every entry is nonnegative
and every row sums to 1. -/
theorem P_σ_row_stochastic (M : Model ny nz) (σ : Pol ny nz)
    (hQ0 : ∀ j jp, 0 ≤ M.Q j jp) (hQ1 : ∀ j, ∑ jp, M.Q j jp = 1) :
    (∀ m mp, 0 ≤ P_flat M σ m mp) ∧
    (∀ m, ∑ mp, P_flat M σ m mp = 1) := by
  constructor
  · intro m mp
    unfold P_flat compute_P_σ
    by_cases h : σ (toPairY m) (toPairZ m) = toPairY mp
    · rw [if_pos h, one_mul]; exact hQ0 _ _
    · rw [if_neg h, zero_mul]
  · intro m
    have h := P_flat_row_apply M σ (fun _ _ => (1 : ℚ)) m
    simp only [flatten, mul_one, one_mul] at h
    rw [h, hQ1]

/-- A one-point concrete model (ny = nz = 0) used by the witnesses: β = 1/2,
the single-entry transition matrix Q = [[1]] (row-stochastic), and constants
making the one-step reward equal to 1. -/
def Mw : Model 0 0 :=
  { β := 1/2, a_0 := 2, a_1 := 1, γ := 0, c := 1,
    y_grid := fun _ => 1, z_grid := fun _ => 1, Q := fun _ _ => 1 }

/-- A concrete value array for the witnesses. -/
def vw1 : Val 0 0 := fun _ _ => 1

/-- A second concrete value array for the witnesses. -/
def vw2 : Val 0 0 := fun _ _ => 0

/-- The fixed point of T_σ on Mw under the only policy: v = 1 + (1/2)·v
gives v = 2. -/
def vfix : Val 0 0 := fun _ _ => 2

/-- The only policy of the one-point model. -/
def σw : Pol 0 0 := fun _ _ => 0

/-- Witness for the contraction theorem: its hypotheses hold at the concrete
model Mw and it applies to the concrete arrays vw1, vw2. -/
theorem T_contraction_witness :
    (0 < Mw.β) ∧ (Mw.β < 1) ∧ (∀ j jp, 0 ≤ Mw.Q j jp) ∧
    (∀ j, ∑ jp, Mw.Q j jp = 1) ∧
    supNorm (fun i j => T Mw vw1 i j - T Mw vw2 i j) ≤
      Mw.β * supNorm (fun i j => vw1 i j - vw2 i j) :=
  ⟨by norm_num [Mw], by norm_num [Mw], fun j jp => by norm_num [Mw],
    fun j => by simp [Mw, Fin.sum_univ_succ],
    T_contraction Mw (by norm_num [Mw]) (by norm_num [Mw])
      (fun j jp => by norm_num [Mw])
      (fun j => by simp [Mw, Fin.sum_univ_succ]) vw1 vw2⟩

/-- Witness for the policy-evaluation equivalence: on Mw the array vfix = 2
solves both the iterative-solver system and the dense flattened system, and
the theorem applies. -/
theorem get_value_versions_agree_witness :
    vfix = vfix ∧ (∀ i j, T_σ Mw vfix σw i j = vfix i j) ∧
    (∀ w : Val 0 0, (∀ i j, T_σ Mw w σw i j = w i j) → w = vfix) :=
  get_value_versions_agree Mw σw (by norm_num [Mw]) (by norm_num [Mw])
    (fun j jp => by norm_num [Mw]) (fun j => by simp [Mw, Fin.sum_univ_succ])
    vfix vfix
    (fun i j => by
      simp [R_σ, compute_r_σ, Mw, vfix, σw, Fin.sum_univ_succ])
    (fun m => by
      rw [I_minus_βP_apply]
      simp [flatten, R_σ, compute_r_σ, Mw, vfix, σw, Fin.sum_univ_succ])

/-- If a policy is already fixed under one improvement round, the loop stops
at once and returns it. -/
theorem pi_loop_stops (M : Model ny nz) (val_fn : Pol ny nz → Val ny nz)
    (n : ℕ) (σ0 : Pol ny nz) (h : get_greedy M (val_fn σ0) = σ0) :
    pi_loop M val_fn (n + 1) σ0 = some σ0 := by
  simp only [pi_loop, h]
  rw [if_neg (not_lt.mpr ((pol_err_le_zero_iff σ0 σ0).mpr rfl))]

/-- Witness for the policy-iteration round-trip: on Mw with the constant
evaluation returning vw1, policy iteration returns σw within 3 rounds, and
the theorem applies. -/
theorem policy_iteration_fixed_point_witness :
    get_greedy Mw ((fun _ => vw1) σw) = σw :=
  policy_iteration_fixed_point Mw (fun _ => vw1) 3 σw
    (pi_loop_stops Mw (fun _ => vw1) 2 (fun _ _ => 0)
      (funext fun i => funext fun j => Fin.eq_zero _))

/-- Witness for the row-stochasticity of the flattened P_σ at the concrete
model Mw. -/
theorem P_σ_row_stochastic_witness :
    (∀ m mp, 0 ≤ P_flat Mw σw m mp) ∧
    (∀ m, ∑ mp, P_flat Mw σw m mp = 1) :=
  P_σ_row_stochastic Mw σw (fun j jp => by norm_num [Mw])
    (fun j => by simp [Mw, Fin.sum_univ_succ])

end Investment
